import Mathlib

set_option maxHeartbeats 1000000

open Real

/-!
Shallow embedding of the bevy_fabrik FABRIK inverse-kinematics solver
(src/chain.rs, src/constraint.rs, src/util.rs, src/lib.rs).

Modelling conventions:
* f32 arithmetic is modelled by the real numbers; the f32 epsilon guards of
  glam collapse to exact comparisons.
* glam Vec3/Vec3A is the structure V3, Vec2 is V2, Quat is Quat.
* bevy GlobalTransform (an Affine3A) is represented by its
  translation-rotation-scale decomposition; matrix3 corresponds to the
  (rotation, scale) pair.  Transform is LocalT.
* The ECS world is a partial map from entity ids to component records; a
  solve returns the updated world together with an error outcome, where
  panicked marks the places the source calls unwrap/panic.
The model is faithful for chains with joint_count at least 2 (the insert
hook rejects smaller counts before a chain can be solved).
-/

/-- glam Vec3 with f32 components modelled as reals. -/
@[ext]
structure V3 where
  x : ℝ
  y : ℝ
  z : ℝ

instance : Zero V3 := ⟨⟨0, 0, 0⟩⟩

instance : Add V3 := ⟨fun a b => ⟨a.x + b.x, a.y + b.y, a.z + b.z⟩⟩

instance : Sub V3 := ⟨fun a b => ⟨a.x - b.x, a.y - b.y, a.z - b.z⟩⟩

instance : SMul ℝ V3 := ⟨fun c v => ⟨c * v.x, c * v.y, c * v.z⟩⟩

/-- glam Vec3::dot. -/
def V3.dot (a b : V3) : ℝ := a.x * b.x + a.y * b.y + a.z * b.z

/-- glam Vec3::length_squared. -/
def V3.lengthSq (v : V3) : ℝ := v.dot v

/-- glam Vec3::length. -/
noncomputable def V3.length (v : V3) : ℝ := Real.sqrt v.lengthSq

/-- glam Vec3::normalize: self multiplied by the reciprocal length. -/
noncomputable def V3.normalize (v : V3) : V3 := v.length⁻¹ • v

/-- glam Vec3::normalize_or: the normalized vector, or the fallback when the
length is zero (the non-finite guard of f32 collapses to this in exact
arithmetic). -/
noncomputable def V3.normalize_or (v fallback : V3) : V3 :=
  if v.length = 0 then fallback else v.length⁻¹ • v

/-- glam Vec3::project_onto: rhs * (self.dot(rhs) / rhs.length_squared()). -/
noncomputable def V3.project_onto (v d : V3) : V3 := (v.dot d / d.lengthSq) • d

/-- glam Vec3::cross. -/
def V3.cross (a b : V3) : V3 :=
  ⟨a.y * b.z - a.z * b.y, a.z * b.x - a.x * b.z, a.x * b.y - a.y * b.x⟩

/-- glam Vec3::distance_squared. -/
def V3.distSq (a b : V3) : ℝ := (a - b).lengthSq

/-- f32::signum: 1 for nonnegative input (including +0.0), -1 for negative. -/
noncomputable def signumf (x : ℝ) : ℝ := if 0 ≤ x then 1 else -1

/-- glam Vec3::any_orthonormal_vector (the branchless ONB construction). -/
noncomputable def V3.any_orthonormal_vector (v : V3) : V3 :=
  let s := signumf v.z
  let a := -1 / (s + v.z)
  let b := v.x * v.y * a
  ⟨b, s + v.y * v.y * a, -v.y⟩

/-- glam Vec2 with f32 components modelled as reals. -/
@[ext]
structure V2 where
  x : ℝ
  y : ℝ

/-- glam Quat with f32 components modelled as reals. -/
@[ext]
structure Quat where
  x : ℝ
  y : ℝ
  z : ℝ
  w : ℝ

/-- glam Quat::IDENTITY. -/
def Quat.identity : Quat := ⟨0, 0, 0, 1⟩

/-- glam Quat::xyz: the vector part. -/
def Quat.xyz (q : Quat) : V3 := ⟨q.x, q.y, q.z⟩

/-- glam Quat::length_squared. -/
def Quat.lengthSq (q : Quat) : ℝ := q.x * q.x + q.y * q.y + q.z * q.z + q.w * q.w

/-- glam Quat::length. -/
noncomputable def Quat.length (q : Quat) : ℝ := Real.sqrt q.lengthSq

/-- glam Quat::normalize. -/
noncomputable def Quat.normalize (q : Quat) : Quat :=
  ⟨q.length⁻¹ * q.x, q.length⁻¹ * q.y, q.length⁻¹ * q.z, q.length⁻¹ * q.w⟩

/-- glam Quat::conjugate. -/
def Quat.conjugate (q : Quat) : Quat := ⟨-q.x, -q.y, -q.z, q.w⟩

/-- glam Quat::inverse: the conjugate (glam asserts the input is normalized,
so the inverse is taken to be the conjugate). -/
def Quat.inverse (q : Quat) : Quat := q.conjugate

/-- glam Quat::mul_quat (the Hamilton product). -/
instance : Mul Quat :=
  ⟨fun a b =>
    ⟨a.w * b.x + a.x * b.w + a.y * b.z - a.z * b.y,
     a.w * b.y + a.y * b.w + a.z * b.x - a.x * b.z,
     a.w * b.z + a.z * b.w + a.x * b.y - a.y * b.x,
     a.w * b.w - a.x * b.x - a.y * b.y - a.z * b.z⟩⟩

/-- glam Quat::from_rotation_z. -/
noncomputable def Quat.from_rotation_z (θ : ℝ) : Quat :=
  ⟨0, 0, Real.sin (θ / 2), Real.cos (θ / 2)⟩

/-- glam Quat::from_axis_angle. -/
noncomputable def Quat.from_axis_angle (axis : V3) (angle : ℝ) : Quat :=
  ⟨axis.x * Real.sin (angle / 2), axis.y * Real.sin (angle / 2),
   axis.z * Real.sin (angle / 2), Real.cos (angle / 2)⟩

/-- glam Quat::from_rotation_arc with the f32 epsilon thresholds collapsed to
exact comparisons: parallel inputs give the identity, antiparallel inputs a
half turn about an orthonormal vector, otherwise the cross-product quaternion
is normalized. -/
noncomputable def Quat.from_rotation_arc (u v : V3) : Quat :=
  let d := u.dot v
  if 1 ≤ d then Quat.identity
  else if d ≤ -1 then Quat.from_axis_angle u.any_orthonormal_vector π
  else
    let c := u.cross v
    Quat.normalize ⟨c.x, c.y, c.z, 1 + d⟩

/-- glam Quat::mul_vec3. -/
def Quat.mulVec3 (q : Quat) (v : V3) : V3 :=
  let b := q.xyz
  let b2 := b.dot b
  (q.w * q.w - b2) • v + (2 * v.dot b) • b + (2 * q.w) • b.cross v

/-- util.rs QuatExt::decompose: swing-twist decomposition of self about dir,
returning (twist, swing). -/
noncomputable def Quat.decompose (q : Quat) (dir : V3) : Quat × Quat :=
  let projected := q.xyz.project_onto dir
  let twist := (Quat.mk projected.x projected.y projected.z q.w).normalize
  let swing := q * twist.inverse
  (twist, swing)

/-- util.rs QuatExt::constrain: limit the vector part of the quaternion to a
sphere of radius sin(angle/2). -/
noncomputable def Quat.constrain (rotation : Quat) (angle : ℝ) : Quat :=
  let magnitude := Real.sin (0.5 * angle)
  let sqr_magnitude := magnitude * magnitude
  let vector := rotation.xyz
  if vector.lengthSq > sqr_magnitude then
    let v := magnitude • vector.normalize
    ⟨v.x, v.y, v.z, Real.sqrt (1 - sqr_magnitude) * signumf rotation.w⟩
  else rotation

/-- constraint.rs: the Constraint trait objects are either SwingConstraint or
TwistConstraint, each storing an angle in radians. -/
inductive Constraint where
  | swing (angle : ℝ)
  | twist (angle : ℝ)

/-- constraint.rs Constraint::get_angle. -/
def Constraint.get_angle : Constraint → ℝ
  | .swing a => a
  | .twist a => a

/-- constraint.rs Constraint::apply on the (swing, twist) pair. -/
noncomputable def Constraint.apply : Constraint → Quat → Quat → Quat × Quat
  | .swing a, s, t => (Quat.constrain s a, t)
  | .twist a, s, t => (s, Quat.constrain t a)

/-- bevy GlobalTransform (an Affine3A), represented by its
translation-rotation-scale decomposition; matrix3 corresponds to the
(rotation, scale) pair. -/
structure GT where
  translation : V3
  rotation : Quat
  scale : V3

instance : Inhabited GT := ⟨⟨⟨0, 0, 0⟩, Quat.identity, ⟨1, 1, 1⟩⟩⟩

/-- bevy Transform (the local transform). -/
structure LocalT where
  translation : V3
  rotation : Quat
  scale : V3

/-- GlobalTransform::reparented_to: parent.affine().inverse() * self.affine()
read back as a Transform.  On TRS-represented affines this is
translation S_p⁻¹ R_p⁻¹ (t_c − t_p), rotation R_p⁻¹ R_c, scale S_c / S_p
(exact whenever the parent scale is uniform; no verified claim inspects
these component values). -/
noncomputable def GT.reparented_to (child parent : GT) : LocalT :=
  let d := child.translation - parent.translation
  let r := parent.rotation.inverse.mulVec3 d
  { translation := ⟨r.x / parent.scale.x, r.y / parent.scale.y, r.z / parent.scale.z⟩,
    rotation := parent.rotation.inverse * child.rotation,
    scale := ⟨child.scale.x / parent.scale.x, child.scale.y / parent.scale.y,
              child.scale.z / parent.scale.z⟩ }

/-- constraint.rs rotate_and_constrain: compose the transform rotation with
the swing-twist decomposed local delta that rotates normal onto direction,
folding every constraint over the decomposed pair. -/
noncomputable def rotate_and_constrain (direction normal : V3) (transform : GT)
    (constraints : List Constraint) : GT :=
  let rotation_local := transform.rotation.inverse * Quat.from_rotation_arc normal direction
  let p := rotation_local.decompose ⟨0, 0, -1⟩
  let q := constraints.foldl (fun st c => c.apply st.1 st.2) (p.2, p.1)
  { transform with rotation := transform.rotation * q.1 * q.2 }

/-- f32::atan2 (y, x) in exact arithmetic. -/
noncomputable def atan2 (y x : ℝ) : ℝ :=
  if 0 < x then Real.arctan (y / x)
  else if x < 0 then
    (if 0 ≤ y then Real.arctan (y / x) + π else Real.arctan (y / x) - π)
  else if 0 < y then π / 2
  else if y < 0 then -(π / 2)
  else 0

/-- chain.rs angle_between_points. -/
noncomputable def angle_between_points (p1 p2 : V2) : ℝ :=
  atan2 (p2.y - p1.y) (p2.x - p1.x)

/-- chain.rs wrapf. -/
noncomputable def wrapf (n min_limit max_limit : ℝ) : ℝ :=
  if min_limit ≤ n ∧ n ≤ max_limit then n
  else if max_limit = 0 ∧ min_limit = 0 then 0
  else
    let m := max_limit - min_limit
    let n1 := n - min_limit
    let num_of_max : ℤ := ⌊|n1 / m|⌋
    let n2 := if m ≤ n1 then n1 - (num_of_max : ℝ) * m
              else if n1 < 0 then n1 + ((num_of_max : ℝ) + 1) * m
              else n1
    n2 + min_limit

/-- rust f32::clamp. -/
noncomputable def clampf (x lo hi : ℝ) : ℝ := if x < lo then lo else if hi < x then hi else x

/-- chain.rs rotate_vector: rotate a Vec2 by an angle. -/
noncomputable def rotate_vector (vector : V2) (angle : ℝ) : V2 :=
  ⟨Real.cos angle * vector.x - Real.sin angle * vector.y,
   Real.sin angle * vector.x + Real.cos angle * vector.y⟩

/-- chain.rs DEFAULT_TARGET_SQ_THRESHOLD. -/
def DEFAULT_TARGET_SQ_THRESHOLD : ℝ := 0.001

/-- chain.rs DEFAULT_MAX_ITTERATIONS (sic). -/
def DEFAULT_MAX_ITTERATIONS : Nat := 10

/-- chain.rs IkChain: the chain descriptor component.  root_normal is a Dir3
modelled as a plain vector. -/
structure IkChain where
  enabled : Bool
  target : V3
  threshold : ℝ
  max_iterations : Nat
  joint_count : Nat
  joint_lengths : List ℝ
  root_normal : V3

/-- IkChain::new: construct a chain descriptor with the given joint count
and defaulted fields.  The source performs no validation here. -/
def IkChain.new (joint_count : Nat) : IkChain :=
  { enabled := true, target := ⟨0, 0, 0⟩, threshold := DEFAULT_TARGET_SQ_THRESHOLD,
    max_iterations := DEFAULT_MAX_ITTERATIONS, joint_count := joint_count,
    joint_lengths := [], root_normal := ⟨0, 1, 0⟩ }

/-- Indexing of the joint_lengths vector. -/
def IkChain.jl (ch : IkChain) (i : Nat) : ℝ := ch.joint_lengths.getD i 0

/-- Pointwise update of the joint buffer at one index. -/
def upd (J : Nat → GT) (i : Nat) (g : GT) : Nat → GT := fun j => if j = i then g else J j

/-- The loop of IkChain::backward_pass: after bpLoop L J k the entries at
indices 1..k have been repositioned (each copying the matrix3 of its
predecessor and placed at distance L from it along the stale direction). -/
noncomputable def bpLoop (L : Nat → ℝ) (J : Nat → GT) : Nat → Nat → GT
  | 0 => J
  | k + 1 =>
    let Jp := bpLoop L J k
    let direction := ((Jp (k + 1)).translation - (Jp k).translation).normalize
    upd Jp (k + 1)
      { translation := (Jp k).translation + (L k) • direction,
        rotation := (Jp k).rotation, scale := (Jp k).scale }

/-- The first statement of IkChain::backward_pass: move the end effector to
the target, keeping its matrix3. -/
def bpInit (ch : IkChain) (J : Nat → GT) : Nat → GT :=
  upd J 0 { (J 0) with translation := ch.target }

/-- IkChain::backward_pass on a buffer of n joints. -/
noncomputable def backward_pass (ch : IkChain) (n : Nat) (J : Nat → GT) : Nat → GT :=
  let origin := (J (n - 1)).translation
  let J2 := bpLoop ch.jl (bpInit ch J) (n - 1)
  upd J2 (n - 1) { (J2 (n - 1)) with translation := origin }

/-- The min/max fold of the forward pass: each constraint on the joint
overwrites both bounds with plus/minus its stored angle. -/
noncomputable def minmax (cs : List Constraint) : ℝ × ℝ :=
  cs.foldl (fun _ c => (-(c.get_angle), c.get_angle)) (-π, π)

/-- The angle computed by one iteration of the forward pass loop at source
loop index i = k: the planar atan2 angle between joints k+1 and k, taken
relative to the accumulated root_angle ra, wrapped into [-pi, pi] and clamped
to the constraint bounds. -/
noncomputable def flAngle (cons : Nat → List Constraint) (k : Nat) (ra : ℝ)
    (J : Nat → GT) : ℝ :=
  let a : V2 := ⟨(J (k + 1)).translation.x, (J (k + 1)).translation.y⟩
  let b : V2 := ⟨(J k).translation.x, (J k).translation.y⟩
  let diff_angle_raw := wrapf (angle_between_points a b - ra) (-π) π
  let mm := minmax (cons (k + 1))
  ra + clampf diff_angle_raw mm.1 mm.2

/-- The buffer update of one iteration of the forward pass loop at source
loop index i = k: joint k+1 receives the pure Z rotation of angle + pi/2
(keeping its translation and scale), joint k is repositioned in the XY plane
at distance joint_lengths[k+1] from joint k+1 (keeping its matrix3). -/
noncomputable def flNext (ch : IkChain) (cons : Nat → List Constraint) (k : Nat)
    (ra : ℝ) (J : Nat → GT) : Nat → GT :=
  let angle := flAngle cons k ra J
  let a : V2 := ⟨(J (k + 1)).translation.x, (J (k + 1)).translation.y⟩
  let rotated_vector := rotate_vector ⟨ch.jl (k + 1), 0⟩ angle
  let J1 := upd J (k + 1)
    { (J (k + 1)) with rotation := Quat.from_rotation_z (angle + π / 2) }
  upd J1 k
    { (J1 k) with translation := ⟨a.x + rotated_vector.x, a.y + rotated_vector.y, 0⟩ }

/-- The descending loop of IkChain::forward_pass: forwardLoop k processes the
source loop indices i = k-1 down to 0, threading the root_angle accumulator. -/
noncomputable def forwardLoop (ch : IkChain) (cons : Nat → List Constraint) :
    Nat → ℝ → (Nat → GT) → Nat → GT
  | 0, _, J => J
  | k + 1, ra, J => forwardLoop ch cons k (flAngle cons k ra J) (flNext ch cons k ra J)

/-- IkChain::forward_pass on a buffer of n joints. -/
noncomputable def forward_pass (ch : IkChain) (cons : Nat → List Constraint) (n : Nat)
    (J : Nat → GT) : Nat → GT :=
  let rei := n - 2
  let J1 := upd J rei
    { (J rei) with translation := (J (n - 1)).translation + (ch.jl rei) • ch.root_normal }
  forwardLoop ch cons rei 0 J1

/-- The iteration loop of IkChain::solve: up to max_iterations rounds of
backward then forward pass, stopping early once the end effector is within
the squared threshold of the target. -/
noncomputable def iterateIk (ch : IkChain) (cons : Nat → List Constraint) (n : Nat) :
    Nat → (Nat → GT) → Nat → GT
  | 0, J => J
  | k + 1, J =>
    if V3.distSq ch.target (J 0).translation < ch.threshold then J
    else iterateIk ch cons n k (forward_pass ch cons n (backward_pass ch n J))

/-- The per-entity component record: Parent link, Transform, GlobalTransform
and the two optional constraint components. -/
structure EntityData where
  parent : Option Nat
  transform : Option LocalT
  global : Option GT
  swing : Option ℝ
  twist : Option ℝ

/-- The ECS world restricted to what the solver touches. -/
abbrev World := Nat → Option EntityData

/-- Read the Parent link of an entity. -/
def parentOf (w : World) (e : Nat) : Option Nat := (w e).bind (fun d => d.parent)

/-- Read the GlobalTransform of an entity. -/
def globalOf (w : World) (e : Nat) : Option GT := (w e).bind (fun d => d.global)

/-- The constraints gathered for one joint: optional swing then optional
twist, flattened, in source order. -/
def constraintsOf (d : EntityData) : List Constraint :=
  (d.swing.map Constraint.swing).toList ++ (d.twist.map Constraint.twist).toList

/-- A lookup through the joined query lens of solve: the entity must carry
both a Transform and a GlobalTransform; the Parent link and the constraints
are optional. -/
def lensGet (w : World) (e : Nat) : Option (Option Nat × GT × List Constraint) :=
  match w e with
  | none => none
  | some d =>
    match d.transform, d.global with
    | some _, some g => some (d.parent, g, constraintsOf d)
    | _, _ => none

/-- transform_query.get: Transform and GlobalTransform must both be present;
returns the GlobalTransform. -/
def transformGet (w : World) (e : Nat) : Option GT :=
  match w e with
  | none => none
  | some d =>
    match d.transform, d.global with
    | some _, some g => some g
    | _, _ => none

/-- The outcome classification of a solve: query models the IkChainError
returned to the host, panicked models the unwrap panics on missing parent
links. -/
inductive SolveErr where
  | query
  | panicked
deriving DecidableEq

/-- The joint gathering loop of IkChain::solve; r counts the joints still to
gather, and the parent link is only unwrapped while more joints remain. -/
def gather (w : World) : Nat → Nat → Except SolveErr (List (GT × List Constraint))
  | _, 0 => .ok []
  | e, r + 1 =>
    match lensGet w e with
    | none => .error .query
    | some (p, g, cs) =>
      if r = 0 then .ok [(g, cs)]
      else
        match p with
        | none => .error .panicked
        | some pe =>
          match gather w pe r with
          | .error err => .error err
          | .ok rest => .ok ((g, cs) :: rest)

/-- The write-back loop of IkChain::solve: walk r entities from the end
effector, writing translation and rotation (scale untouched) of each local
transform from the solved buffer reparented to its successor.  The world is
returned alongside the outcome so that partial write effects stay visible;
the source writes a joint before unwrapping its parent link. -/
noncomputable def writeBack (arr : Nat → GT) : World → Nat → Nat → Nat → World × Option SolveErr
  | w, _, _, 0 => (w, none)
  | w, e, i, r + 1 =>
    match w e with
    | none => (w, some .query)
    | some d =>
      match d.transform, d.global with
      | some t, some _ =>
        let u := GT.reparented_to (arr i) (arr (i + 1))
        let t1 : LocalT := { t with translation := u.translation, rotation := u.rotation }
        let d1 : EntityData := { d with transform := some t1 }
        let w1 : World := fun x => if x = e then some d1 else w x
        (match d.parent with
         | some pe => writeBack arr w1 pe (i + 1) r
         | none => (w1, some .panicked))
      | _, _ => (w, some .query)

/-- IkChain::solve against the world: early return when disabled or within
threshold, gather the chain, iterate the two passes, then write back.  The
returned pair is the updated world and the outcome (none models Ok). -/
noncomputable def IkChain.solve (ch : IkChain) (entity : Nat) (w : World) :
    World × Option SolveErr :=
  if !ch.enabled then (w, none)
  else
    match transformGet w entity with
    | none => (w, some .query)
    | some g =>
      if V3.distSq g.translation ch.target < ch.threshold then (w, none)
      else
        match gather w entity ch.joint_count with
        | .error err => (w, some err)
        | .ok arr =>
          let J0 : Nat → GT := fun i => ((arr[i]?).map Prod.fst).getD default
          let cons : Nat → List Constraint := fun i => ((arr[i]?).map Prod.snd).getD []
          let J := iterateIk ch cons ch.joint_count ch.max_iterations J0
          writeBack J w entity 0 (ch.joint_count - 1)

/-- Follow the parent links k times from an entity. -/
def walkTo (w : World) (e : Nat) : Nat → Option Nat
  | 0 => some e
  | k + 1 => (walkTo w e k).bind (parentOf w)

/-- The panics of ik_chain_insert_hook, as error values. -/
inductive HookErr where
  | tooFewJoints
  | missingParent
  | missingTransform
deriving DecidableEq

/-- The walk of ik_chain_insert_hook: k remaining steps upward from tail,
threading the running joint_normal accumulator (Vec3::ZERO initially);
returns the collected lengths and the final joint_normal. -/
noncomputable def hookWalk (w : World) : Nat → V3 → Nat → Except HookErr (List ℝ × V3)
  | _, n, 0 => .ok ([], n)
  | tail, _, k + 1 =>
    match parentOf w tail with
    | none => .error .missingParent
    | some joint =>
      match globalOf w joint with
      | none => .error .missingTransform
      | some jt =>
        match globalOf w tail with
        | none => .error .missingTransform
        | some tt =>
          match hookWalk w joint (tt.translation - jt.translation) k with
          | .error err => .error err
          | .ok rn => .ok ((tt.translation - jt.translation).length :: rn.1, rn.2)

/-- chain.rs ik_chain_insert_hook: reject joint_count below 2, walk the
joint_count - 1 parents collecting segment lengths, then seed root_normal
from the last difference vector (Dir3::new on the normalize_or output always
succeeds in exact arithmetic, with fallback +Y). -/
noncomputable def ik_chain_insert_hook (w : World) (entity : Nat) (ch : IkChain) :
    Except HookErr IkChain :=
  if ch.joint_count < 2 then .error .tooFewJoints
  else
    match hookWalk w entity ⟨0, 0, 0⟩ (ch.joint_count - 1) with
    | .error err => .error err
    | .ok ln =>
      .ok { ch with joint_lengths := ln.1,
                    root_normal := ln.2.normalize_or ⟨0, 1, 0⟩ }

/-- The solvable shape of a chain suffix: starting at entity e, r entities in
a row carry Transform, GlobalTransform and a parent link.  This is what a
successful gather guarantees for the write-back walk. -/
def chainOK (w : World) : Nat → Nat → Prop
  | _, 0 => True
  | e, r + 1 =>
    ∃ d pe, w e = some d ∧ d.transform.isSome ∧ d.global.isSome ∧
      d.parent = some pe ∧ chainOK w pe r

/-- Specification of the initialization walk, stated from the spec text: each
step reads the world positions of the tail and of its parent, records their
distance into the length list, and advances to the parent; the accumulator
carries the last tail minus parent difference vector, returned at the end. -/
def WalkSpec (w : World) : Nat → V3 → Nat → List ℝ → V3 → Prop
  | _, n0, 0, L, f => L = [] ∧ f = n0
  | tail, _, k + 1, L, f =>
    ∃ p tp pp L1,
      parentOf w tail = some p ∧ globalOf w tail = some tp ∧
      globalOf w p = some pp ∧
      L = (tp.translation - pp.translation).length :: L1 ∧
      WalkSpec w p (tp.translation - pp.translation) k L1 f

/-- A world frame at a given position with identity rotation and unit scale,
used by the concrete examples. -/
def gtAt (p : V3) : GT := { translation := p, rotation := Quat.identity, scale := ⟨1, 1, 1⟩ }

/-- A default local transform used by the concrete example worlds. -/
def ltId : LocalT := { translation := ⟨0, 0, 0⟩, rotation := Quat.identity, scale := ⟨1, 1, 1⟩ }

/-- Example chain descriptor: enabled, target at the origin, two joints with
one segment of length 1. -/
def chainTwo : IkChain :=
  { enabled := true, target := ⟨0, 0, 0⟩, threshold := DEFAULT_TARGET_SQ_THRESHOLD,
    max_iterations := 10, joint_count := 2, joint_lengths := [1], root_normal := ⟨0, 1, 0⟩ }

/-- The disabled variant of chainTwo. -/
def chainDisabled : IkChain := { chainTwo with enabled := false }

/-- Example world: tail entity 0, far from the target, with no parent link. -/
def worldNoParent : World := fun e =>
  if e = 0 then
    some { parent := none, transform := some ltId, global := some (gtAt ⟨10, 0, 0⟩),
           swing := none, twist := none }
  else none

/-- Example world: tail entity 0 far from the target, whose root entity 1
lacks a GlobalTransform. -/
def worldNoGlobal : World := fun e =>
  if e = 0 then
    some { parent := some 1, transform := some ltId, global := some (gtAt ⟨10, 0, 0⟩),
           swing := none, twist := none }
  else if e = 1 then
    some { parent := none, transform := some ltId, global := none,
           swing := none, twist := none }
  else none

/-- Example world: a well formed two joint chain whose tail already sits at
the origin. -/
def worldAtTarget : World := fun e =>
  if e = 0 then
    some { parent := some 1, transform := some ltId, global := some (gtAt ⟨0, 0, 0⟩),
           swing := none, twist := none }
  else if e = 1 then
    some { parent := none, transform := some ltId, global := some (gtAt ⟨0, 2, 0⟩),
           swing := none, twist := none }
  else none

/-- Example world: a well formed three joint chain along the Y axis. -/
def worldThree : World := fun e =>
  if e = 0 then
    some { parent := some 1, transform := some ltId, global := some (gtAt ⟨0, 2, 0⟩),
           swing := none, twist := none }
  else if e = 1 then
    some { parent := some 2, transform := some ltId, global := some (gtAt ⟨0, 1, 0⟩),
           swing := none, twist := none }
  else if e = 2 then
    some { parent := none, transform := some ltId, global := some (gtAt ⟨0, 0, 0⟩),
           swing := none, twist := none }
  else none

/-- Example joint buffer: three joints on the Y axis with identity rotations. -/
def bufThree : Nat → GT := fun j =>
  if j = 0 then gtAt ⟨0, 2, 0⟩ else if j = 1 then gtAt ⟨0, 1, 0⟩ else gtAt ⟨0, 0, 0⟩

/-- bufThree with the end effector frame given a half turn about the X axis. -/
def bufThreeRot : Nat → GT := fun j =>
  if j = 0 then { gtAt ⟨0, 2, 0⟩ with rotation := ⟨1, 0, 0, 0⟩ } else bufThree j

/-- Example chain for the three joint buffer: both segment lengths 1, root
normal +Y, target straight up. -/
def chainThree : IkChain :=
  { enabled := true, target := ⟨0, 3, 0⟩, threshold := DEFAULT_TARGET_SQ_THRESHOLD,
    max_iterations := 10, joint_count := 3, joint_lengths := [1, 1], root_normal := ⟨0, 1, 0⟩ }

/-- The empty constraint assignment. -/
def noCons : Nat → List Constraint := fun _ => []

/-! ### Basic component lemmas -/

@[simp]
theorem V3.zero_x : (0 : V3).x = 0 := rfl

@[simp]
theorem V3.zero_y : (0 : V3).y = 0 := rfl

@[simp]
theorem V3.zero_z : (0 : V3).z = 0 := rfl

@[simp]
theorem V3.add_def (a b : V3) : a + b = ⟨a.x + b.x, a.y + b.y, a.z + b.z⟩ := rfl

@[simp]
theorem V3.sub_def (a b : V3) : a - b = ⟨a.x - b.x, a.y - b.y, a.z - b.z⟩ := rfl

@[simp]
theorem V3.smul_def (c : ℝ) (v : V3) : c • v = ⟨c * v.x, c * v.y, c * v.z⟩ := rfl

@[simp]
theorem Quat.mul_def (a b : Quat) :
    a * b =
      ⟨a.w * b.x + a.x * b.w + a.y * b.z - a.z * b.y,
       a.w * b.y + a.y * b.w + a.z * b.x - a.x * b.z,
       a.w * b.z + a.z * b.w + a.x * b.y - a.y * b.x,
       a.w * b.w - a.x * b.x - a.y * b.y - a.z * b.z⟩ := rfl

theorem Quat.mul_identity (q : Quat) : q * Quat.identity = q := by
  simp only [Quat.identity, Quat.mul_def]
  ext <;> ring

theorem Quat.identity_mul (q : Quat) : Quat.identity * q = q := by
  simp only [Quat.identity, Quat.mul_def]
  ext <;> ring

theorem V3.lengthSq_nonneg (v : V3) : 0 ≤ v.lengthSq := by
  simp only [V3.lengthSq, V3.dot]
  nlinarith [mul_self_nonneg v.x, mul_self_nonneg v.y, mul_self_nonneg v.z]

theorem V3.length_nonneg (v : V3) : 0 ≤ v.length := Real.sqrt_nonneg _

theorem V3.eq_zero_of_lengthSq_eq_zero {v : V3} (h : v.lengthSq = 0) : v = 0 := by
  have h' : v.x ^ 2 + v.y ^ 2 + v.z ^ 2 = 0 := by
    simp only [V3.lengthSq, V3.dot] at h
    linear_combination h
  have hx : v.x = 0 := by
    have := sq_nonneg v.x
    have := sq_nonneg v.y
    have := sq_nonneg v.z
    nlinarith [sq_abs v.x]
  have hy : v.y = 0 := by
    have := sq_nonneg v.x
    have := sq_nonneg v.y
    have := sq_nonneg v.z
    nlinarith
  have hz : v.z = 0 := by
    have := sq_nonneg v.x
    have := sq_nonneg v.y
    have := sq_nonneg v.z
    nlinarith
  ext <;> simp [hx, hy, hz]

theorem V3.lengthSq_pos {v : V3} (h : v ≠ 0) : 0 < v.lengthSq := by
  rcases lt_or_eq_of_le (V3.lengthSq_nonneg v) with hlt | heq
  · exact hlt
  · exact absurd (V3.eq_zero_of_lengthSq_eq_zero heq.symm) h

theorem V3.length_pos {v : V3} (h : v ≠ 0) : 0 < v.length :=
  Real.sqrt_pos.mpr (V3.lengthSq_pos h)

theorem V3.length_smul (c : ℝ) (v : V3) : (c • v).length = |c| * v.length := by
  simp only [V3.length, V3.lengthSq, V3.dot, V3.smul_def]
  rw [show c * v.x * (c * v.x) + c * v.y * (c * v.y) + c * v.z * (c * v.z)
      = c ^ 2 * (v.x * v.x + v.y * v.y + v.z * v.z) by ring]
  rw [Real.sqrt_mul (sq_nonneg c), Real.sqrt_sq_eq_abs]

theorem V3.length_normalize {v : V3} (h : v ≠ 0) : v.normalize.length = 1 := by
  have hp := V3.length_pos h
  rw [V3.normalize, V3.length_smul, abs_inv, abs_of_pos hp, inv_mul_cancel₀ (ne_of_gt hp)]

/-! ### Buffer update lemmas -/

theorem upd_same (J : Nat → GT) (i : Nat) (g : GT) : upd J i g i = g := by
  simp [upd]

theorem upd_ne (J : Nat → GT) (i : Nat) (g : GT) {j : Nat} (h : j ≠ i) :
    upd J i g j = J j := by
  simp [upd, h]

/-! ### Backward pass loop structure -/

theorem bpLoop_untouched (L : Nat → ℝ) (J : Nat → GT) :
    ∀ k j, k < j → bpLoop L J k j = J j := by
  intro k
  induction k with
  | zero => intro j _; rfl
  | succ k ih =>
    intro j hj
    simp only [bpLoop]
    rw [upd_ne _ _ _ (by omega : j ≠ k + 1)]
    exact ih j (by omega)

theorem bpLoop_zero_idx (L : Nat → ℝ) (J : Nat → GT) :
    ∀ k, bpLoop L J k 0 = J 0 := by
  intro k
  induction k with
  | zero => rfl
  | succ k ih =>
    simp only [bpLoop]
    rw [upd_ne _ _ _ (by omega : 0 ≠ k + 1)]
    exact ih

theorem bpLoop_stable (L : Nat → ℝ) (J : Nat → GT) :
    ∀ k j, j ≤ k → bpLoop L J k j = bpLoop L J j j := by
  intro k
  induction k with
  | zero =>
    intro j hj
    have : j = 0 := Nat.le_zero.mp hj
    rw [this]
  | succ k ih =>
    intro j hj
    rcases Nat.eq_or_lt_of_le hj with he | hl
    · rw [he]
    · simp only [bpLoop]
      rw [upd_ne _ _ _ (by omega : j ≠ k + 1)]
      exact ih j (by omega)

theorem bpLoop_step (L : Nat → ℝ) (J : Nat → GT) (k : Nat) :
    bpLoop L J (k + 1) (k + 1) =
      { translation := (bpLoop L J k k).translation +
          (L k) • (((bpLoop L J k (k + 1)).translation - (bpLoop L J k k).translation).normalize),
        rotation := (bpLoop L J k k).rotation,
        scale := (bpLoop L J k k).scale } := by
  simp only [bpLoop]
  rw [upd_same]

/-! ### Forward pass loop structure -/

theorem flNext_ne (ch : IkChain) (cons : Nat → List Constraint) (k : Nat) (ra : ℝ)
    (J : Nat → GT) {j : Nat} (h1 : j ≠ k) (h2 : j ≠ k + 1) :
    flNext ch cons k ra J j = J j := by
  simp only [flNext]
  rw [upd_ne _ _ _ h1, upd_ne _ _ _ h2]

theorem flNext_at_succ (ch : IkChain) (cons : Nat → List Constraint) (k : Nat) (ra : ℝ)
    (J : Nat → GT) :
    flNext ch cons k ra J (k + 1) =
      { (J (k + 1)) with
        rotation := Quat.from_rotation_z (flAngle cons k ra J + π / 2) } := by
  simp only [flNext]
  rw [upd_ne _ _ _ (by omega : k + 1 ≠ k), upd_same]

theorem flNext_trans_at (ch : IkChain) (cons : Nat → List Constraint) (k : Nat) (ra : ℝ)
    (J : Nat → GT) :
    (flNext ch cons k ra J k).translation =
      ⟨(J (k + 1)).translation.x +
         (rotate_vector ⟨ch.jl (k + 1), 0⟩ (flAngle cons k ra J)).x,
       (J (k + 1)).translation.y +
         (rotate_vector ⟨ch.jl (k + 1), 0⟩ (flAngle cons k ra J)).y, 0⟩ := by
  simp only [flNext]
  rw [upd_same]

theorem flNext_rot_at (ch : IkChain) (cons : Nat → List Constraint) (k : Nat) (ra : ℝ)
    (J : Nat → GT) :
    (flNext ch cons k ra J k).rotation = (J k).rotation := by
  simp only [flNext]
  rw [upd_same]
  simp only []
  rw [upd_ne _ _ _ (by omega : k ≠ k + 1)]

theorem forwardLoop_untouched (ch : IkChain) (cons : Nat → List Constraint) :
    ∀ k ra (J : Nat → GT) j, k < j → forwardLoop ch cons k ra J j = J j := by
  intro k
  induction k with
  | zero => intro ra J j _; rfl
  | succ k ih =>
    intro ra J j hj
    simp only [forwardLoop]
    rw [ih _ _ j (by omega)]
    exact flNext_ne ch cons k ra J (by omega) (by omega)

theorem forwardLoop_trans_ge (ch : IkChain) (cons : Nat → List Constraint) :
    ∀ k ra (J : Nat → GT) j, k ≤ j →
      (forwardLoop ch cons k ra J j).translation = (J j).translation := by
  intro k
  induction k with
  | zero => intro ra J j _; rfl
  | succ k ih =>
    intro ra J j hj
    simp only [forwardLoop]
    rw [ih _ _ j (by omega)]
    rcases Nat.eq_or_lt_of_le hj with he | hl
    · rw [← he, flNext_at_succ]
    · rw [flNext_ne ch cons k _ J (by omega) (by omega)]

theorem forwardLoop_rot_zero (ch : IkChain) (cons : Nat → List Constraint) :
    ∀ k ra (J : Nat → GT), (forwardLoop ch cons k ra J 0).rotation = (J 0).rotation := by
  intro k
  induction k with
  | zero => intro ra J; rfl
  | succ k ih =>
    intro ra J
    simp only [forwardLoop]
    rw [ih]
    rcases Nat.eq_zero_or_pos k with hk | hk
    · rw [hk, flNext_rot_at]
    · rw [flNext_ne ch cons k ra J (by omega) (by omega)]

theorem forwardLoop_rot_z (ch : IkChain) (cons : Nat → List Constraint) :
    ∀ k ra (J : Nat → GT) j, 1 ≤ j → j ≤ k →
      ∃ θ, (forwardLoop ch cons k ra J j).rotation = Quat.from_rotation_z θ := by
  intro k
  induction k with
  | zero => intro ra J j h1 h0; omega
  | succ k ih =>
    intro ra J j h1 hj
    rcases Nat.lt_or_ge j (k + 1) with hl | hg
    · simp only [forwardLoop]
      exact ih _ _ j h1 (by omega)
    · have hje : j = k + 1 := by omega
      subst hje
      simp only [forwardLoop]
      rw [forwardLoop_untouched ch cons k _ _ _ (by omega), flNext_at_succ]
      exact ⟨flAngle cons k ra J + π / 2, rfl⟩

theorem forwardLoop_trans_z (ch : IkChain) (cons : Nat → List Constraint) :
    ∀ k ra (J : Nat → GT) j, j < k →
      ((forwardLoop ch cons k ra J) j).translation.z = 0 := by
  intro k
  induction k with
  | zero => intro ra J j h; omega
  | succ k ih =>
    intro ra J j hj
    rcases Nat.lt_or_ge j k with hl | hg
    · simp only [forwardLoop]
      exact ih _ _ j hl
    · have hje : j = k := by omega
      rw [hje]
      simp only [forwardLoop]
      rw [forwardLoop_trans_ge ch cons k _ _ k le_rfl, flNext_trans_at]

/-! ### Forward pass congruence: rotations written depend only on translations -/

theorem flAngle_congr (cons : Nat → List Constraint) (k : Nat) (ra : ℝ)
    (J K : Nat → GT) (h : ∀ j, (J j).translation = (K j).translation) :
    flAngle cons k ra J = flAngle cons k ra K := by
  simp only [flAngle]
  rw [h k, h (k + 1)]

theorem flNext_trans_congr (ch : IkChain) (cons : Nat → List Constraint) (k : Nat)
    (ra : ℝ) (J K : Nat → GT) (h : ∀ j, (J j).translation = (K j).translation) :
    ∀ j, ((flNext ch cons k ra J) j).translation = ((flNext ch cons k ra K) j).translation := by
  intro j
  by_cases hk : j = k
  · rw [hk, flNext_trans_at, flNext_trans_at, h (k + 1), flAngle_congr cons k ra J K h]
  · by_cases hk1 : j = k + 1
    · rw [hk1, flNext_at_succ, flNext_at_succ]
      exact h (k + 1)
    · rw [flNext_ne _ _ _ _ _ hk hk1, flNext_ne _ _ _ _ _ hk hk1]
      exact h j

theorem forwardLoop_congr (ch : IkChain) (cons : Nat → List Constraint) :
    ∀ k ra (J K : Nat → GT), (∀ j, (J j).translation = (K j).translation) →
      (∀ j, ((forwardLoop ch cons k ra J) j).translation
          = ((forwardLoop ch cons k ra K) j).translation) ∧
      (∀ j, 1 ≤ j → j ≤ k → ((forwardLoop ch cons k ra J) j).rotation
          = ((forwardLoop ch cons k ra K) j).rotation) := by
  intro k
  induction k with
  | zero =>
    intro ra J K h
    exact ⟨h, fun j h1 h0 => by omega⟩
  | succ k ih =>
    intro ra J K h
    have hang := flAngle_congr cons k ra J K h
    have hnext := flNext_trans_congr ch cons k ra J K h
    obtain ⟨ht, hr⟩ :=
      ih (flAngle cons k ra K) (flNext ch cons k ra J) (flNext ch cons k ra K) hnext
    constructor
    · intro j
      simp only [forwardLoop]
      rw [hang]
      exact ht j
    · intro j h1 hj
      simp only [forwardLoop]
      rw [hang]
      rcases Nat.lt_or_ge j (k + 1) with hl | hg
      · exact hr j h1 (by omega)
      · have hje : j = k + 1 := by omega
        rw [hje, forwardLoop_untouched ch cons k _ _ _ (by omega),
            forwardLoop_untouched ch cons k _ _ _ (by omega),
            flNext_at_succ, flNext_at_succ, flAngle_congr cons k ra J K h]

/-! ### Gather, write-back and world shape -/

theorem lensGet_some {w : World} {e : Nat} {p : Option Nat} {g : GT} {cs : List Constraint}
    (h : lensGet w e = some (p, g, cs)) :
    ∃ d, w e = some d ∧ d.parent = p ∧ d.transform.isSome ∧ d.global = some g := by
  unfold lensGet at h
  split at h
  · exact absurd h (by simp)
  · rename_i d hw
    split at h
    · rename_i t g2 ht hg
      simp only [Option.some.injEq, Prod.mk.injEq] at h
      exact ⟨d, hw, h.1, by simp [ht], by rw [hg, h.2.1]⟩
    · exact absurd h (by simp)

theorem gather_chainOK (w : World) :
    ∀ r e l, gather w e (r + 1) = .ok l → chainOK w e r := by
  intro r
  induction r with
  | zero => intro e l _; trivial
  | succ r ih =>
    intro e l hg
    unfold gather at hg
    split at hg
    · exact absurd hg (by simp)
    · rename_i pgc p g cs hlg
      rw [if_neg (by omega : ¬ (r + 1 = 0))] at hg
      split at hg
      · exact absurd hg (by simp)
      · rename_i pe
        split at hg
        · exact absurd hg (by simp)
        · rename_i rest hrec
          obtain ⟨d, hwd, hdp, hdt, hdg⟩ := lensGet_some hlg
          exact ⟨d, pe, hwd, hdt, by simp [hdg], hdp, ih pe rest hrec⟩

theorem chainOK_update (w : World) (y : Nat) (dy : EntityData) (t1 : Option LocalT)
    (hy : w y = some dy) (ht1 : t1.isSome) :
    ∀ r e, chainOK w e r →
      chainOK (fun x => if x = y then some { dy with transform := t1 } else w x) e r := by
  intro r
  induction r with
  | zero => intro e _; trivial
  | succ r ih =>
    intro e h
    obtain ⟨d, pe, hwd, hdt, hdg, hdp, hrest⟩ := h
    by_cases hey : e = y
    · have hde : d = dy := by
        rw [hey] at hwd
        rw [hwd] at hy
        exact Option.some.inj hy
      refine ⟨{ dy with transform := t1 }, pe, by simp [hey], ht1, ?_, ?_, ih pe hrest⟩
      · show dy.global.isSome
        rw [← hde]; exact hdg
      · show dy.parent = some pe
        rw [← hde]; exact hdp
    · exact ⟨d, pe, by simp [hey, hwd], hdt, hdg, hdp, ih pe hrest⟩

theorem writeBack_ok (arr : Nat → GT) :
    ∀ r w e i, chainOK w e r → (writeBack arr w e i r).2 = none := by
  intro r
  induction r with
  | zero => intro w e i _; rfl
  | succ r ih =>
    intro w e i h
    obtain ⟨d, pe, hwd, hdt, hdg, hdp, hrest⟩ := h
    obtain ⟨t, ht⟩ := Option.isSome_iff_exists.mp hdt
    obtain ⟨g, hg⟩ := Option.isSome_iff_exists.mp hdg
    unfold writeBack
    split
    · rename_i hw
      rw [hwd] at hw
      exact absurd hw (by simp)
    · rename_i d2 hw
      rw [hwd] at hw
      have hde : d = d2 := Option.some.inj hw
      subst hde
      split
      · rename_i t2 g2 ht2 hg2
        split
        · rename_i pe2 hp2
          apply ih
          have hpe : pe2 = pe := by
            rw [hdp] at hp2
            exact (Option.some.inj hp2).symm
          rw [hpe]
          exact chainOK_update w e d _ hwd (by simp) r pe hrest
        · rename_i hp2
          rw [hdp] at hp2
          exact absurd hp2 (by simp)
      · rename_i hnm
        exact (hnm t g ht hg).elim

theorem globalOf_update {w : World} {e : Nat} {d : EntityData} (hw : w e = some d)
    (t1 : Option LocalT) (x : Nat) :
    globalOf (fun y => if y = e then some { d with transform := t1 } else w y) x
      = globalOf w x := by
  by_cases hx : x = e
  · simp [globalOf, hx, hw]
  · simp [globalOf, hx]

theorem parentOf_update {w : World} {e : Nat} {d : EntityData} (hw : w e = some d)
    (t1 : Option LocalT) (x : Nat) :
    parentOf (fun y => if y = e then some { d with transform := t1 } else w y) x
      = parentOf w x := by
  by_cases hx : x = e
  · simp [parentOf, hx, hw]
  · simp [parentOf, hx]

theorem writeBack_globalOf (arr : Nat → GT) :
    ∀ r w e i x, globalOf ((writeBack arr w e i r).1) x = globalOf w x := by
  intro r
  induction r with
  | zero => intro w e i x; rfl
  | succ r ih =>
    intro w e i x
    unfold writeBack
    split
    · rfl
    · rename_i d hw
      split
      · rename_i t g ht hg
        split
        · rename_i pe hp
          rw [ih]
          exact globalOf_update hw _ x
        · exact globalOf_update hw _ x
      · rfl

theorem writeBack_parentOf (arr : Nat → GT) :
    ∀ r w e i x, parentOf ((writeBack arr w e i r).1) x = parentOf w x := by
  intro r
  induction r with
  | zero => intro w e i x; rfl
  | succ r ih =>
    intro w e i x
    unfold writeBack
    split
    · rfl
    · rename_i d hw
      split
      · rename_i t g ht hg
        split
        · rename_i pe hp
          rw [ih]
          exact parentOf_update hw _ x
        · exact parentOf_update hw _ x
      · rfl

theorem walkTo_succ_head (w : World) (e : Nat) :
    ∀ k, walkTo w e (k + 1) =
      match parentOf w e with
      | none => none
      | some p => walkTo w p k := by
  intro k
  induction k with
  | zero =>
    show (Option.bind (some e) (parentOf w)) = _
    cases hp : parentOf w e with
    | none => simp [hp]
    | some p => simp [hp]; rfl
  | succ k ih =>
    show (walkTo w e (k + 1)).bind (parentOf w) = _
    rw [ih]
    cases hp : parentOf w e with
    | none => rfl
    | some p => rfl

theorem walkTo_congr {w w2 : World} (hp : ∀ x, parentOf w2 x = parentOf w x) (e : Nat) :
    ∀ k, walkTo w2 e k = walkTo w e k := by
  intro k
  induction k with
  | zero => rfl
  | succ k ih =>
    show (walkTo w2 e k).bind (parentOf w2) = (walkTo w e k).bind (parentOf w)
    rw [ih]
    cases hv : walkTo w e k with
    | none => rfl
    | some y => simp [hp y]

theorem parentOf_set (w : World) (e : Nat) (d1 : EntityData) (x : Nat)
    (hd : parentOf w e = d1.parent) :
    parentOf (fun y => if y = e then some d1 else w y) x = parentOf w x := by
  by_cases hx : x = e
  · simp only [parentOf, hx, if_pos rfl, Option.bind_some]
    exact hd.symm
  · simp [parentOf, hx]

theorem writeBack_untouched (arr : Nat → GT) :
    ∀ r w e i x, (∀ k, k < r → walkTo w e k ≠ some x) →
      ((writeBack arr w e i r).1) x = w x := by
  intro r
  induction r with
  | zero => intro w e i x _; rfl
  | succ r ih =>
    intro w e i x hvis
    have hex : ¬ (x = e) := by
      intro hh
      exact hvis 0 (by omega) (by simp [walkTo, hh])
    unfold writeBack
    split
    · rfl
    · rename_i d hw
      split
      · rename_i t g ht hg
        split
        · rename_i pe hp
          have hpe : parentOf w e = some pe := by
            simp [parentOf, hw, hp]
          have hstep : ∀ k, k < r → walkTo w pe k ≠ some x := by
            intro k hk
            have hv := hvis (k + 1) (by omega)
            rw [walkTo_succ_head w e k, hpe] at hv
            exact hv
          refine Eq.trans (ih _ pe (i + 1) x ?_) ?_
          · intro k hk hcon
            exact hstep k hk
              (((walkTo_congr (fun y => parentOf_update hw _ y) pe k).symm).trans hcon)
          · exact if_neg hex
        · exact if_neg hex
      · rfl

/-! ### Solve level lemmas -/

theorem solve_cases (ch : IkChain) (entity : Nat) (w : World) :
    ch.solve entity w = (w, none) ∨
    ch.solve entity w = (w, some SolveErr.query) ∨
    ch.solve entity w = (w, some SolveErr.panicked) ∨
    ∃ arr, gather w entity ch.joint_count = Except.ok arr ∧
      ch.solve entity w =
        writeBack
          (iterateIk ch (fun i => ((arr[i]?).map Prod.snd).getD [])
            ch.joint_count ch.max_iterations
            (fun i => ((arr[i]?).map Prod.fst).getD default))
          w entity 0 (ch.joint_count - 1) := by
  unfold IkChain.solve
  split
  · left; rfl
  · split
    · right; left; rfl
    · split
      · left; rfl
      · split
        · rename_i err herr
          cases err
          · right; left; rfl
          · right; right; left; rfl
        · rename_i arr harr
          right; right; right
          exact ⟨arr, harr, rfl⟩

theorem solve_disabled (ch : IkChain) (entity : Nat) (w : World) (h : ch.enabled = false) :
    ch.solve entity w = (w, none) := by
  unfold IkChain.solve
  rw [h]
  rfl

theorem solve_within (ch : IkChain) (entity : Nat) (w : World) (g : GT)
    (he : ch.enabled = true) (htg : transformGet w entity = some g)
    (hd : V3.distSq g.translation ch.target < ch.threshold) :
    ch.solve entity w = (w, none) := by
  unfold IkChain.solve
  split
  · rfl
  · split
    · rename_i htg2
      rw [htg] at htg2
      exact absurd htg2 (by simp)
    · rename_i g2 htg2
      rw [htg] at htg2
      have hge : g = g2 := Option.some.inj htg2
      rw [← hge, if_pos hd]

theorem solve_query_unchanged (ch : IkChain) (entity : Nat) (w : World)
    (h : (ch.solve entity w).2 = some SolveErr.query) :
    (ch.solve entity w).1 = w := by
  rcases solve_cases ch entity w with h1 | h1 | h1 | ⟨arr, harr, h1⟩
  · rw [h1]
  · rw [h1]
  · rw [h1] at h
    exact absurd (Option.some.inj h) (by simp)
  · rw [h1] at h
    have hok : (writeBack
          (iterateIk ch (fun i => ((arr[i]?).map Prod.snd).getD [])
            ch.joint_count ch.max_iterations
            (fun i => ((arr[i]?).map Prod.fst).getD default))
          w entity 0 (ch.joint_count - 1)).2 = none := by
      rcases Nat.eq_zero_or_pos ch.joint_count with hjc | hjc
      · rw [hjc]
        rfl
      · obtain ⟨c, hc⟩ := Nat.exists_eq_succ_of_ne_zero (by omega : ch.joint_count ≠ 0)
        rw [hc]
        simp only [Nat.succ_sub_one]
        refine writeBack_ok _ c w entity 0 (gather_chainOK w c entity arr ?_)
        have hgs : gather w entity (c.succ) = Except.ok arr := by
          rw [← hc]
          exact harr
        exact hgs
    rw [hok] at h
    exact absurd h (by simp)

theorem solve_untouched (ch : IkChain) (entity : Nat) (w : World) (x : Nat)
    (hvis : ∀ k, k < ch.joint_count - 1 → walkTo w entity k ≠ some x) :
    ((ch.solve entity w).1) x = w x := by
  rcases solve_cases ch entity w with h1 | h1 | h1 | ⟨arr, harr, h1⟩
  · rw [h1]
  · rw [h1]
  · rw [h1]
  · rw [h1]
    exact writeBack_untouched _ (ch.joint_count - 1) w entity 0 x hvis

theorem solve_globalOf (ch : IkChain) (entity : Nat) (w : World) (x : Nat) :
    globalOf ((ch.solve entity w).1) x = globalOf w x := by
  rcases solve_cases ch entity w with h1 | h1 | h1 | ⟨arr, harr, h1⟩
  · rw [h1]
  · rw [h1]
  · rw [h1]
  · rw [h1]
    exact writeBack_globalOf _ (ch.joint_count - 1) w entity 0 x

/-! ### Initialization walk -/

theorem hookWalk_spec (w : World) :
    ∀ k tail n0 L f, hookWalk w tail n0 k = .ok (L, f) →
      L.length = k ∧ WalkSpec w tail n0 k L f := by
  intro k
  induction k with
  | zero =>
    intro tail n0 L f h
    simp only [hookWalk, Except.ok.injEq, Prod.mk.injEq] at h
    refine ⟨?_, ?_, ?_⟩
    · rw [← h.1]
      rfl
    · exact h.1.symm
    · exact h.2.symm
  | succ k ih =>
    intro tail n0 L f h
    unfold hookWalk at h
    split at h
    · exact absurd h (by simp)
    · rename_i joint hpar
      split at h
      · exact absurd h (by simp)
      · rename_i jt hjt
        split at h
        · exact absurd h (by simp)
        · rename_i tt htt
          split at h
          · exact absurd h (by simp)
          · rename_i rn hrec
            simp only [Except.ok.injEq, Prod.mk.injEq] at h
            obtain ⟨hrl, hsp⟩ := ih joint _ rn.1 rn.2 hrec
            constructor
            · rw [← h.1]
              simp [hrl]
            · refine ⟨joint, tt, jt, rn.1, hpar, htt, hjt, h.1.symm, ?_⟩
              rw [← h.2]
              exact hsp

/-! ### Claim theorems -/

/-- C8: for every quaternion q and angle, constrain(q, angle) with
m = sin(angle/2) returns q unchanged when the squared length of the vector
part of q is at most m squared, and otherwise returns the quaternion with
vector part normalize(v) * m and scalar part sqrt(1 - m^2) * sign(q.w). -/
theorem c8_constrain (q : Quat) (angle : ℝ) :
    (q.xyz.lengthSq ≤ Real.sin (angle / 2) * Real.sin (angle / 2) →
      Quat.constrain q angle = q) ∧
    (Real.sin (angle / 2) * Real.sin (angle / 2) < q.xyz.lengthSq →
      Quat.constrain q angle =
        ⟨(Real.sin (angle / 2) • q.xyz.normalize).x,
         (Real.sin (angle / 2) • q.xyz.normalize).y,
         (Real.sin (angle / 2) • q.xyz.normalize).z,
         Real.sqrt (1 - Real.sin (angle / 2) * Real.sin (angle / 2)) * signumf q.w⟩) := by
  have h05 : Real.sin (0.5 * angle) = Real.sin (angle / 2) := by
    rw [show (0.5 : ℝ) * angle = angle / 2 by ring]
  constructor
  · intro h
    simp only [Quat.constrain, h05]
    rw [if_neg (not_lt.mpr h)]
  · intro h
    simp only [Quat.constrain, h05]
    rw [if_pos h]

theorem c8_constrain_witness : Quat.constrain ⟨0, 0, 0, 1⟩ 0 = ⟨0, 0, 0, 1⟩ := by
  refine (c8_constrain ⟨0, 0, 0, 1⟩ 0).1 ?_
  simp [Quat.xyz, V3.lengthSq, V3.dot]

/-- C9 counterexample: the unit quaternion (0,0,0,-1) has zero projection of
its vector part on the Z axis, yet decompose returns twist (0,0,0,-1), not
the identity quaternion. -/
theorem c9_counterexample :
    (Quat.mk 0 0 0 (-1)).lengthSq = 1 ∧
    (Quat.mk 0 0 0 (-1)).xyz.project_onto ⟨0, 0, 1⟩ = 0 ∧
    ((Quat.mk 0 0 0 (-1)).decompose ⟨0, 0, 1⟩).1 ≠ Quat.identity := by
  have hproj : (Quat.mk 0 0 0 (-1 : ℝ)).xyz.project_onto ⟨0, 0, 1⟩ = (0 : V3) := by
    simp only [Quat.xyz, V3.project_onto, V3.dot, V3.lengthSq, V3.smul_def]
    ext <;> norm_num
  refine ⟨by simp [Quat.lengthSq], hproj, ?_⟩
  have hlen : (Quat.mk 0 0 0 (-1 : ℝ)).length = 1 := by
    simp only [Quat.length, Quat.lengthSq]
    rw [show (0 : ℝ) * 0 + 0 * 0 + 0 * 0 + (-1) * (-1) = 1 by ring, Real.sqrt_one]
  simp only [Quat.decompose, hproj, V3.zero_x, V3.zero_y, V3.zero_z]
  intro hcon
  have hww := congrArg Quat.w hcon
  simp only [Quat.normalize, hlen, Quat.identity] at hww
  norm_num at hww

/-- C9 amended: for a unit quaternion q with nonnegative scalar part
(strictly positive w), when the projection of the vector part of q onto d is
zero, decompose returns twist = identity and swing = q.  For w < 0 the code
instead returns twist = -identity and swing = -q (see the counterexample). -/
theorem c9_decompose_degenerate (q : Quat) (d : V3) (hq : q.lengthSq = 1)
    (hp : q.xyz.project_onto d = 0) (hw : 0 < q.w) :
    q.decompose d = (Quat.identity, q) := by
  have hlen : (Quat.mk 0 0 0 q.w).length = q.w := by
    simp only [Quat.length, Quat.lengthSq]
    rw [show (0 : ℝ) * 0 + 0 * 0 + 0 * 0 + q.w * q.w = q.w ^ 2 by ring,
        Real.sqrt_sq (le_of_lt hw)]
  have htwist : (Quat.mk 0 0 0 q.w).normalize = Quat.identity := by
    simp only [Quat.normalize, hlen, Quat.identity]
    ext <;> simp [inv_mul_cancel₀ (ne_of_gt hw)]
  have hinv : Quat.identity.inverse = Quat.identity := by
    simp only [Quat.inverse, Quat.conjugate, Quat.identity]
    ext <;> simp
  simp only [Quat.decompose, hp, V3.zero_x, V3.zero_y, V3.zero_z]
  rw [htwist, hinv, Quat.mul_identity]

theorem c9_decompose_degenerate_witness :
    (Quat.mk 0 0 0 1).decompose ⟨0, 0, 1⟩ = (Quat.identity, ⟨0, 0, 0, 1⟩) := by
  refine c9_decompose_degenerate ⟨0, 0, 0, 1⟩ ⟨0, 0, 1⟩ (by simp [Quat.lengthSq]) ?_
    (by norm_num)
  simp only [Quat.xyz, V3.project_onto, V3.dot, V3.lengthSq, V3.smul_def]
  ext <;> norm_num

/-- C4 counterexample: IkChain::new(1) is not rejected; it returns a fully
formed descriptor with joint_count 1 and all other fields defaulted. -/
theorem c4_counterexample :
    IkChain.new 1 =
      { enabled := true, target := ⟨0, 0, 0⟩, threshold := DEFAULT_TARGET_SQ_THRESHOLD,
        max_iterations := 10, joint_count := 1, joint_lengths := [],
        root_normal := ⟨0, 1, 0⟩ } := rfl

/-- C4 amended: IkChain::new performs no validation (the descriptor keeps
whatever joint_count it is given); a joint_count below 2 is rejected when the
component is inserted, by the on-insert hook panicking before the descriptor
is initialized. -/
theorem c4_hook_rejects :
    (∀ k, (IkChain.new k).joint_count = k) ∧
    (∀ (w : World) (e : Nat) (ch : IkChain), ch.joint_count < 2 →
      ik_chain_insert_hook w e ch = .error .tooFewJoints) := by
  constructor
  · intro k
    rfl
  · intro w e ch h
    unfold ik_chain_insert_hook
    rw [if_pos h]

theorem c4_hook_rejects_witness :
    ik_chain_insert_hook (fun _ => none) 0 (IkChain.new 1) = .error .tooFewJoints :=
  c4_hook_rejects.2 (fun _ => none) 0 (IkChain.new 1) (by norm_num [IkChain.new])

/-- C6: solve returns Ok without mutating the world when the chain is
disabled, and likewise when the end effector world position is already
within the squared threshold of the target; zero iterations are executed and
the returned world is the input world unchanged. -/
theorem c6_early_return :
    (∀ (ch : IkChain) (e : Nat) (w : World), ch.enabled = false →
      ch.solve e w = (w, none)) ∧
    (∀ (ch : IkChain) (e : Nat) (w : World) (g : GT), ch.enabled = true →
      transformGet w e = some g →
      V3.distSq g.translation ch.target < ch.threshold →
      ch.solve e w = (w, none)) :=
  ⟨fun ch e w h => solve_disabled ch e w h,
   fun ch e w g he htg hd => solve_within ch e w g he htg hd⟩

theorem c6_early_return_witness :
    chainDisabled.solve 0 worldAtTarget = (worldAtTarget, none) ∧
    chainTwo.solve 0 worldAtTarget = (worldAtTarget, none) := by
  constructor
  · exact c6_early_return.1 chainDisabled 0 worldAtTarget rfl
  · refine c6_early_return.2 chainTwo 0 worldAtTarget (gtAt ⟨0, 0, 0⟩) rfl rfl ?_
    simp only [gtAt, chainTwo, V3.distSq, V3.lengthSq, V3.dot, V3.sub_def,
      DEFAULT_TARGET_SQ_THRESHOLD]
    norm_num

/-- C2: the root joint world position is identical before and after solving:
the backward pass restores the saved root translation, the forward pass
leaves the last joint frame untouched, the whole iteration preserves the
root translation, the write-back never touches an entity that is not among
the first joint_count - 1 entities of the parent walk (in particular the
root), and no GlobalTransform is ever written by a solve. -/
theorem c2_root_fixity :
    (∀ (ch : IkChain) (n : Nat) (J : Nat → GT), 2 ≤ n →
      ((backward_pass ch n J) (n - 1)).translation = (J (n - 1)).translation) ∧
    (∀ (ch : IkChain) (cons : Nat → List Constraint) (n : Nat) (J : Nat → GT), 2 ≤ n →
      (forward_pass ch cons n J) (n - 1) = J (n - 1)) ∧
    (∀ (ch : IkChain) (cons : Nat → List Constraint) (n : Nat) (J : Nat → GT) (k : Nat),
      2 ≤ n →
      ((iterateIk ch cons n k J) (n - 1)).translation = (J (n - 1)).translation) ∧
    (∀ (ch : IkChain) (e : Nat) (w : World) (root : Nat),
      (∀ k, k < ch.joint_count - 1 → walkTo w e k ≠ some root) →
      ((ch.solve e w).1) root = w root) ∧
    (∀ (ch : IkChain) (e : Nat) (w : World) (x : Nat),
      globalOf ((ch.solve e w).1) x = globalOf w x) := by
  have hb : ∀ (ch : IkChain) (n : Nat) (J : Nat → GT), 2 ≤ n →
      ((backward_pass ch n J) (n - 1)).translation = (J (n - 1)).translation := by
    intro ch n J hn
    simp only [backward_pass]
    rw [upd_same]
  have hf : ∀ (ch : IkChain) (cons : Nat → List Constraint) (n : Nat) (J : Nat → GT),
      2 ≤ n → (forward_pass ch cons n J) (n - 1) = J (n - 1) := by
    intro ch cons n J hn
    simp only [forward_pass]
    rw [forwardLoop_untouched ch cons (n - 2) _ _ _ (by omega)]
    rw [upd_ne _ _ _ (by omega : n - 1 ≠ n - 2)]
  refine ⟨hb, hf, ?_, ?_, ?_⟩
  · intro ch cons n J k hn
    induction k generalizing J with
    | zero => rfl
    | succ k ih =>
      simp only [iterateIk]
      split
      · rfl
      · rw [ih (forward_pass ch cons n (backward_pass ch n J))]
        rw [hf ch cons n (backward_pass ch n J) hn]
        exact hb ch n J hn
  · intro ch e w root hvis
    exact solve_untouched ch e w root hvis
  · intro ch e w x
    exact solve_globalOf ch e w x

theorem c2_root_fixity_witness :
    ((backward_pass chainThree 3 bufThree) 2).translation = (bufThree 2).translation ∧
    (forward_pass chainThree noCons 3 bufThree) 2 = bufThree 2 ∧
    ((iterateIk chainThree noCons 3 10 bufThree) 2).translation = (bufThree 2).translation ∧
    ((chainTwo.solve 0 worldAtTarget).1) 1 = worldAtTarget 1 ∧
    globalOf ((chainTwo.solve 0 worldAtTarget).1) 1 = globalOf worldAtTarget 1 := by
  refine ⟨c2_root_fixity.1 chainThree 3 bufThree (by norm_num),
          c2_root_fixity.2.1 chainThree noCons 3 bufThree (by norm_num),
          c2_root_fixity.2.2.1 chainThree noCons 3 bufThree 10 (by norm_num),
          c2_root_fixity.2.2.2.1 chainTwo 0 worldAtTarget 1 ?_,
          c2_root_fixity.2.2.2.2 chainTwo 0 worldAtTarget 1⟩
  intro k hk
  have hk0 : k = 0 := by
    have : chainTwo.joint_count = 2 := rfl
    omega
  rw [hk0]
  simp [walkTo]

/-- C5 amended: when solve returns the query error to the host, the world is
unchanged: no partial write-back is performed.  (A missing parent link
instead panics, see the counterexample.) -/
theorem c5_no_partial_writeback (ch : IkChain) (e : Nat) (w : World)
    (h : (ch.solve e w).2 = some SolveErr.query) :
    (ch.solve e w).1 = w :=
  solve_query_unchanged ch e w h

/-- C5 counterexample: with the tail entity lacking a parent link, solve
does not return an error to the host: it panics (the parent unwrap), shown
here as the panicked outcome. -/
theorem c5_counterexample :
    (chainTwo.solve 0 worldNoParent).2 = some SolveErr.panicked ∧
    SolveErr.panicked ≠ SolveErr.query := by
  constructor
  · have hsolve : chainTwo.solve 0 worldNoParent = (worldNoParent, some SolveErr.panicked) := by
      unfold IkChain.solve
      split
      · rename_i hcon
        norm_num [chainTwo] at hcon
      · split
        · rename_i htg
          rw [show transformGet worldNoParent 0 = some (gtAt ⟨10, 0, 0⟩) from rfl] at htg
          exact absurd htg (by simp)
        · rename_i g htg
          have hge : gtAt ⟨10, 0, 0⟩ = g := by
            rw [show transformGet worldNoParent 0 = some (gtAt ⟨10, 0, 0⟩) from rfl] at htg
            exact Option.some.inj htg
          split
          · rename_i hd
            rw [← hge] at hd
            simp only [gtAt, chainTwo, V3.distSq, V3.lengthSq, V3.dot, V3.sub_def,
              DEFAULT_TARGET_SQ_THRESHOLD] at hd
            norm_num at hd
          · split
            · rename_i err herr
              rw [show gather worldNoParent 0 chainTwo.joint_count
                  = Except.error SolveErr.panicked from rfl] at herr
              rw [Except.error.inj herr]
            · rename_i arr harr
              rw [show gather worldNoParent 0 chainTwo.joint_count
                  = Except.error SolveErr.panicked from rfl] at harr
              exact absurd harr (by simp)
    rw [hsolve]
  · intro hcon
    exact absurd hcon (by simp)

theorem c5_no_partial_writeback_witness :
    (chainTwo.solve 0 worldNoGlobal).1 = worldNoGlobal := by
  apply c5_no_partial_writeback
  have hsolve : chainTwo.solve 0 worldNoGlobal = (worldNoGlobal, some SolveErr.query) := by
    unfold IkChain.solve
    split
    · rename_i hcon
      norm_num [chainTwo] at hcon
    · split
      · rfl
      · rename_i g htg
        have hge : gtAt ⟨10, 0, 0⟩ = g := by
          rw [show transformGet worldNoGlobal 0 = some (gtAt ⟨10, 0, 0⟩) from rfl] at htg
          exact Option.some.inj htg
        split
        · rename_i hd
          rw [← hge] at hd
          simp only [gtAt, chainTwo, V3.distSq, V3.lengthSq, V3.dot, V3.sub_def,
            DEFAULT_TARGET_SQ_THRESHOLD] at hd
          norm_num at hd
        · split
          · rename_i err herr
            rw [show gather worldNoGlobal 0 chainTwo.joint_count
                = Except.error SolveErr.query from rfl] at herr
            rw [Except.error.inj herr]
          · rename_i arr harr
            rw [show gather worldNoGlobal 0 chainTwo.joint_count
                = Except.error SolveErr.query from rfl] at harr
            exact absurd harr (by simp)
  rw [hsolve]

/-- C7: when the insert hook succeeds, the walk visited joint_count - 1
parent steps, joint_lengths holds exactly the distances from each tail world
position to its parent world position in walk order (WalkSpec), and
root_normal is the normalization of the final tail minus parent difference
vector, falling back to world +Y when that vector has zero length. -/
theorem c7_init_walk (w : World) (entity : Nat) (ch ch2 : IkChain)
    (h : ik_chain_insert_hook w entity ch = .ok ch2) :
    ch2.joint_lengths.length = ch.joint_count - 1 ∧
    ∃ f : V3, WalkSpec w entity ⟨0, 0, 0⟩ (ch.joint_count - 1) ch2.joint_lengths f ∧
      ch2.root_normal = (if f.length = 0 then (⟨0, 1, 0⟩ : V3) else f.length⁻¹ • f) := by
  unfold ik_chain_insert_hook at h
  split at h
  · exact absurd h (by simp)
  · split at h
    · exact absurd h (by simp)
    · rename_i ln hwalk
      obtain ⟨hlen, hspec⟩ :=
        hookWalk_spec w (ch.joint_count - 1) entity ⟨0, 0, 0⟩ ln.1 ln.2 hwalk
      have hch : ch2 = { ch with
          joint_lengths := ln.1
          root_normal := ln.2.normalize_or ⟨0, 1, 0⟩ } := (Except.ok.inj h).symm
      refine ⟨?_, ln.2, ?_, ?_⟩
      · rw [hch]
        exact hlen
      · rw [hch]
        exact hspec
      · rw [hch]
        show V3.normalize_or ln.2 ⟨0, 1, 0⟩ = _
        rw [V3.normalize_or]

theorem c7_init_walk_witness :
    ({ IkChain.new 3 with
        joint_lengths := [1, 1]
        root_normal := ⟨0, 1, 0⟩ } : IkChain).joint_lengths.length
        = (IkChain.new 3).joint_count - 1 ∧
    ∃ f : V3, WalkSpec worldThree 0 ⟨0, 0, 0⟩ ((IkChain.new 3).joint_count - 1)
        ({ IkChain.new 3 with
            joint_lengths := [1, 1]
            root_normal := ⟨0, 1, 0⟩ } : IkChain).joint_lengths f ∧
      ({ IkChain.new 3 with
          joint_lengths := [1, 1]
          root_normal := ⟨0, 1, 0⟩ } : IkChain).root_normal
        = (if f.length = 0 then (⟨0, 1, 0⟩ : V3) else f.length⁻¹ • f) := by
  apply c7_init_walk worldThree 0 (IkChain.new 3)
  have hsub1 : ((⟨0, 2, 0⟩ : V3) - ⟨0, 1, 0⟩) = ⟨0, 1, 0⟩ := by
    ext <;> norm_num
  have hsub2 : ((⟨0, 1, 0⟩ : V3) - ⟨0, 0, 0⟩) = ⟨0, 1, 0⟩ := by
    ext <;> norm_num
  have hunit : V3.length ⟨0, 1, 0⟩ = 1 := by
    simp only [V3.length, V3.lengthSq, V3.dot]
    rw [show (0 : ℝ) * 0 + 1 * 1 + 0 * 0 = 1 by ring, Real.sqrt_one]
  have hwalk : hookWalk worldThree 0 ⟨0, 0, 0⟩ 2 =
      .ok ([V3.length ((⟨0, 2, 0⟩ : V3) - ⟨0, 1, 0⟩),
            V3.length ((⟨0, 1, 0⟩ : V3) - ⟨0, 0, 0⟩)],
           ((⟨0, 1, 0⟩ : V3) - ⟨0, 0, 0⟩)) := rfl
  have hwalk2 : hookWalk worldThree 0 ⟨0, 0, 0⟩ 2 = .ok ([1, 1], ⟨0, 1, 0⟩) := by
    rw [hwalk, hsub1, hsub2, hunit]
  have hnorm : V3.normalize_or ⟨0, 1, 0⟩ ⟨0, 1, 0⟩ = (⟨0, 1, 0⟩ : V3) := by
    rw [V3.normalize_or, if_neg (by rw [hunit]; norm_num), hunit]
    ext <;> norm_num
  unfold ik_chain_insert_hook
  rw [if_neg (by norm_num [IkChain.new])]
  show (match hookWalk worldThree 0 ⟨0, 0, 0⟩ ((IkChain.new 3).joint_count - 1) with
    | .error err => Except.error err
    | .ok ln => Except.ok { IkChain.new 3 with
        joint_lengths := ln.1
        root_normal := ln.2.normalize_or ⟨0, 1, 0⟩ }) = _
  rw [show (IkChain.new 3).joint_count - 1 = 2 from rfl, hwalk2]
  simp only [Except.ok.injEq]
  rw [hnorm]

theorem V3.eq_of_sub_eq_zero {a b : V3} (h : a - b = 0) : a = b := by
  have hx := congrArg V3.x h
  have hy := congrArg V3.y h
  have hz := congrArg V3.z h
  simp only [V3.sub_def, V3.zero_x, V3.zero_y, V3.zero_z] at hx hy hz
  ext <;> linarith

theorem V3.sub_ne_zero_of_ne {a b : V3} (h : a ≠ b) : a - b ≠ 0 := by
  intro hc
  exact h (V3.eq_of_sub_eq_zero hc)

theorem V3.length_smul_normalize {v : V3} (c : ℝ) (hv : v ≠ 0) (hc : 0 ≤ c) :
    (c • v.normalize).length = c := by
  rw [V3.length_smul, V3.length_normalize hv, mul_one, abs_of_nonneg hc]

theorem V3.add_sub_cancel_left (a b : V3) : (a + b) - a = b := by
  simp only [V3.add_def, V3.sub_def]
  ext <;> simp

/-- C3: the backward pass (a) saves the root translation at entry and
restores it at exit, (b) moves the end effector to the target leaving its
orientation unchanged, (c) repositions each joint i (1..n-1, sequentially)
at the updated position of joint i-1 plus joint_lengths[i-1] times the
normalized direction from the updated joint i-1 towards the stale joint i,
and (d) hence every segment except the final one adjacent to the root has
length exactly joint_lengths[i] (given nondegenerate directions and
nonnegative stored lengths). -/
theorem c3_backward_pass (ch : IkChain) (n : Nat) (J : Nat → GT) (hn : 2 ≤ n)
    (hL : ∀ k, k < n - 1 → 0 ≤ ch.jl k)
    (hnd : ∀ k, k < n - 1 →
      ((bpLoop ch.jl (bpInit ch J) k) (k + 1)).translation
        ≠ ((bpLoop ch.jl (bpInit ch J) k) k).translation) :
    ((backward_pass ch n J) (n - 1)).translation = (J (n - 1)).translation ∧
    ((backward_pass ch n J) 0).translation = ch.target ∧
    ((backward_pass ch n J) 0).rotation = (J 0).rotation ∧
    (∀ i, 1 ≤ i → i ≤ n - 1 →
      bpLoop ch.jl (bpInit ch J) (n - 1) i =
        { translation := (bpLoop ch.jl (bpInit ch J) (n - 1) (i - 1)).translation
            + (ch.jl (i - 1)) • (((J i).translation
              - (bpLoop ch.jl (bpInit ch J) (n - 1) (i - 1)).translation).normalize),
          rotation := (bpLoop ch.jl (bpInit ch J) (n - 1) (i - 1)).rotation,
          scale := (bpLoop ch.jl (bpInit ch J) (n - 1) (i - 1)).scale }) ∧
    (∀ i, i + 2 < n →
      (((backward_pass ch n J) (i + 1)).translation
        - ((backward_pass ch n J) i).translation).length = ch.jl i) := by
  have hinit_ne : ∀ j, 1 ≤ j → bpInit ch J j = J j := by
    intro j hj
    exact upd_ne _ _ _ (by omega)
  have hloop : ∀ i, 1 ≤ i → i ≤ n - 1 →
      bpLoop ch.jl (bpInit ch J) (n - 1) i =
        { translation := (bpLoop ch.jl (bpInit ch J) (n - 1) (i - 1)).translation
            + (ch.jl (i - 1)) • (((J i).translation
              - (bpLoop ch.jl (bpInit ch J) (n - 1) (i - 1)).translation).normalize),
          rotation := (bpLoop ch.jl (bpInit ch J) (n - 1) (i - 1)).rotation,
          scale := (bpLoop ch.jl (bpInit ch J) (n - 1) (i - 1)).scale } := by
    intro i h1 hi
    obtain ⟨j, rfl⟩ : ∃ j, i = j + 1 := ⟨i - 1, by omega⟩
    rw [bpLoop_stable _ _ (n - 1) (j + 1) hi, bpLoop_step]
    have hstable : bpLoop ch.jl (bpInit ch J) (n - 1) (j + 1 - 1)
        = bpLoop ch.jl (bpInit ch J) j j := by
      rw [show j + 1 - 1 = j from rfl]
      exact bpLoop_stable _ _ (n - 1) j (by omega)
    have huntouched : bpLoop ch.jl (bpInit ch J) j (j + 1) = J (j + 1) := by
      rw [bpLoop_untouched _ _ j (j + 1) (by omega)]
      exact hinit_ne (j + 1) (by omega)
    rw [hstable, huntouched]
    rfl
  refine ⟨?_, ?_, ?_, hloop, ?_⟩
  · simp only [backward_pass]
    rw [upd_same]
  · simp only [backward_pass]
    rw [upd_ne _ _ _ (by omega : 0 ≠ n - 1), bpLoop_zero_idx, bpInit, upd_same]
  · simp only [backward_pass]
    rw [upd_ne _ _ _ (by omega : 0 ≠ n - 1), bpLoop_zero_idx, bpInit, upd_same]
  · intro i hi
    have hfi : (backward_pass ch n J) i = bpLoop ch.jl (bpInit ch J) (n - 1) i := by
      simp only [backward_pass]
      exact upd_ne _ _ _ (by omega)
    have hfi1 : (backward_pass ch n J) (i + 1) = bpLoop ch.jl (bpInit ch J) (n - 1) (i + 1) := by
      simp only [backward_pass]
      exact upd_ne _ _ _ (by omega)
    rw [hfi, hfi1, hloop (i + 1) (by omega) (by omega)]
    have hi10 : i + 1 - 1 = i := rfl
    rw [hi10]
    have hndi := hnd i (by omega)
    have hbi : bpLoop ch.jl (bpInit ch J) i (i + 1) = J (i + 1) := by
      rw [bpLoop_untouched _ _ i (i + 1) (by omega)]
      exact hinit_ne (i + 1) (by omega)
    have hstab : bpLoop ch.jl (bpInit ch J) (n - 1) i = bpLoop ch.jl (bpInit ch J) i i :=
      bpLoop_stable _ _ (n - 1) i (by omega)
    rw [hbi] at hndi
    rw [hstab]
    have hv : (J (i + 1)).translation - (bpLoop ch.jl (bpInit ch J) i i).translation ≠ 0 :=
      V3.sub_ne_zero_of_ne hndi
    have hcancel :
        ((bpLoop ch.jl (bpInit ch J) i i).translation
          + (ch.jl i) • (((J (i + 1)).translation
            - (bpLoop ch.jl (bpInit ch J) i i).translation).normalize))
          - (bpLoop ch.jl (bpInit ch J) i i).translation
        = (ch.jl i) • (((J (i + 1)).translation
            - (bpLoop ch.jl (bpInit ch J) i i).translation).normalize) :=
      V3.add_sub_cancel_left _ _
    rw [hcancel]
    exact V3.length_smul_normalize _ hv (hL i (by omega))

theorem c3_backward_pass_witness :
    ((backward_pass chainThree 3 bufThree) 2).translation = (bufThree 2).translation ∧
    (((backward_pass chainThree 3 bufThree) 1).translation
      - ((backward_pass chainThree 3 bufThree) 0).translation).length = chainThree.jl 0 := by
  have hs4 : Real.sqrt 4 = 2 := by
    rw [show (4 : ℝ) = 2 ^ 2 by norm_num, Real.sqrt_sq (by norm_num)]
  have hdiff : (⟨0, 1, 0⟩ : V3) - ⟨0, 3, 0⟩ = ⟨0, -2, 0⟩ := by
    ext <;> norm_num
  have hlen : V3.length ⟨0, -2, 0⟩ = 2 := by
    simp only [V3.length, V3.lengthSq, V3.dot]
    rw [show (0 : ℝ) * 0 + (-2) * (-2) + 0 * 0 = 4 by ring, hs4]
  have hnorm : V3.normalize ⟨0, -2, 0⟩ = ⟨0, -1, 0⟩ := by
    rw [V3.normalize, hlen]
    ext <;> norm_num
  have hL : ∀ k, k < 3 - 1 → 0 ≤ chainThree.jl k := by
    intro k hk
    interval_cases k <;> norm_num [IkChain.jl, chainThree]
  have hnd : ∀ k, k < 3 - 1 →
      ((bpLoop chainThree.jl (bpInit chainThree bufThree) k) (k + 1)).translation
        ≠ ((bpLoop chainThree.jl (bpInit chainThree bufThree) k) k).translation := by
    intro k hk
    interval_cases k
    · have e1 : ((bpLoop chainThree.jl (bpInit chainThree bufThree) 0) 1).translation
          = (⟨0, 1, 0⟩ : V3) := rfl
      have e2 : ((bpLoop chainThree.jl (bpInit chainThree bufThree) 0) 0).translation
          = (⟨0, 3, 0⟩ : V3) := rfl
      rw [e1, e2]
      intro h
      have hy := congrArg V3.y h
      norm_num at hy
    · have e3 : ((bpLoop chainThree.jl (bpInit chainThree bufThree) 1) 2).translation
          = (⟨0, 0, 0⟩ : V3) := rfl
      have e4 : ((bpLoop chainThree.jl (bpInit chainThree bufThree) 1) 1).translation
          = (⟨0, 3, 0⟩ : V3) + (1 : ℝ) • V3.normalize ((⟨0, 1, 0⟩ : V3) - ⟨0, 3, 0⟩) := rfl
      have e5 : ((bpLoop chainThree.jl (bpInit chainThree bufThree) 1) 1).translation
          = (⟨0, 2, 0⟩ : V3) := by
        rw [e4, hdiff, hnorm]
        ext <;> norm_num
      rw [e3, e5]
      intro h
      have hy := congrArg V3.y h
      norm_num at hy
  have h := c3_backward_pass chainThree 3 bufThree (by norm_num) hL hnd
  exact ⟨h.1, h.2.2.2.2 0 (by norm_num)⟩

/-- C10 amended: the forward pass flattens into the XY plane the joints it
repositions: for 0 <= i < joint_count - 2 the world translation has z
exactly 0 regardless of the input frames; the rotations it writes (indices 1
to joint_count - 2) are pure rotations about the world Z axis; but joint 0's
rotation is left unchanged, so the original range 0 <= i < joint_count - 2
is wrong for rotations at i = 0. -/
theorem c10_flatten (ch : IkChain) (cons : Nat → List Constraint) (n : Nat)
    (J : Nat → GT) (hn : 2 ≤ n) :
    (∀ i, i < n - 2 → ((forward_pass ch cons n J) i).translation.z = 0) ∧
    (∀ i, 1 ≤ i → i ≤ n - 2 →
      ∃ θ, ((forward_pass ch cons n J) i).rotation = Quat.from_rotation_z θ) ∧
    ((forward_pass ch cons n J) 0).rotation = (J 0).rotation := by
  refine ⟨?_, ?_, ?_⟩
  · intro i hi
    simp only [forward_pass]
    exact forwardLoop_trans_z ch cons (n - 2) 0 _ i hi
  · intro i h1 hi
    simp only [forward_pass]
    exact forwardLoop_rot_z ch cons (n - 2) 0 _ i h1 hi
  · simp only [forward_pass]
    rw [forwardLoop_rot_zero]
    by_cases h0 : n - 2 = 0
    · rw [h0, upd_same]
    · rw [upd_ne _ _ _ (Ne.symm h0)]

theorem c10_flatten_witness :
    ((forward_pass chainThree noCons 3 bufThree) 0).translation.z = 0 ∧
    (∃ θ, ((forward_pass chainThree noCons 3 bufThree) 1).rotation
      = Quat.from_rotation_z θ) ∧
    ((forward_pass chainThree noCons 3 bufThree) 0).rotation = (bufThree 0).rotation := by
  have h := c10_flatten chainThree noCons 3 bufThree (by norm_num)
  exact ⟨h.1 0 (by norm_num), h.2.1 1 (by norm_num) (by norm_num), h.2.2⟩

/-- C10 counterexample: with the end effector frame rotated about the X
axis, the forward pass leaves joint 0's rotation untouched, so for i = 0
(which satisfies 0 <= i < joint_count - 2 here) the rotation is not a
rotation about the world Z axis. -/
theorem c10_counterexample :
    ((forward_pass chainThree noCons 3 bufThreeRot) 0).rotation = ⟨1, 0, 0, 0⟩ ∧
    ¬ ∃ θ, (⟨1, 0, 0, 0⟩ : Quat) = Quat.from_rotation_z θ := by
  constructor
  · simp only [forward_pass]
    rw [forwardLoop_rot_zero]
    rw [upd_ne _ _ _ (by norm_num : 0 ≠ 3 - 2)]
    rfl
  · rintro ⟨θ, hq⟩
    have hx := congrArg Quat.x hq
    simp only [Quat.from_rotation_z] at hx
    norm_num at hx

/-- Concrete evaluation of the first forward loop angle for a joint pair at
planar positions (0,1) and (0,2) with no constraints: atan2(1, 0) = pi/2,
unwrapped and unclamped. -/
theorem flAngle_example (cons : Nat → List Constraint) (J : Nat → GT)
    (hc : cons 1 = [])
    (ha1 : (J 1).translation.x = 0) (ha2 : (J 1).translation.y = 1)
    (hb1 : (J 0).translation.x = 0) (hb2 : (J 0).translation.y = 2) :
    flAngle cons 0 0 J = 0 + π / 2 := by
  have hat : atan2 1 0 = π / 2 := by
    unfold atan2
    rw [if_neg (by norm_num), if_neg (by norm_num), if_pos (by norm_num)]
  have hwr : wrapf (π / 2 - 0) (-π) π = π / 2 := by
    unfold wrapf
    rw [sub_zero, if_pos ⟨by linarith [Real.pi_pos], by linarith [Real.pi_pos]⟩]
  have hcl : clampf (π / 2) (-π) π = π / 2 := by
    unfold clampf
    rw [if_neg (by push_neg; linarith [Real.pi_pos]),
        if_neg (by push_neg; linarith [Real.pi_pos])]
  simp only [flAngle, angle_between_points, hc, ha1, ha2, hb1, hb2]
  rw [show (2 : ℝ) - 1 = 1 by norm_num, show (0 : ℝ) - 0 = 0 by norm_num, hat,
      show minmax [] = (-π, π) from rfl]
  rw [hwr, hcl]

/-- C1 amended: the forward pass computes joint rotations by the 2D planar
method: every rewritten joint (indices 1 to joint_count - 2) receives a pure
rotation about the world Z axis, and the rotations written depend only on
the joint translations, never on any current joint rotation, so no
composition of the current rotation with a swing-twist delta takes place. -/
theorem c1_forward_pass_planar (ch : IkChain) (cons : Nat → List Constraint) (n : Nat)
    (J K : Nat → GT) (hK : ∀ j, (J j).translation = (K j).translation) :
    (∀ i, 1 ≤ i → i ≤ n - 2 →
      ∃ θ, ((forward_pass ch cons n J) i).rotation = Quat.from_rotation_z θ) ∧
    (∀ i, 1 ≤ i → i ≤ n - 2 →
      ((forward_pass ch cons n J) i).rotation = ((forward_pass ch cons n K) i).rotation) := by
  constructor
  · intro i h1 hi
    simp only [forward_pass]
    exact forwardLoop_rot_z ch cons (n - 2) 0 _ i h1 hi
  · intro i h1 hi
    simp only [forward_pass]
    refine (forwardLoop_congr ch cons (n - 2) 0 _ _ ?_).2 i h1 hi
    intro j
    by_cases hj : j = n - 2
    · rw [hj, upd_same, upd_same]
      show (J (n - 1)).translation + ch.jl (n - 2) • ch.root_normal
        = (K (n - 1)).translation + ch.jl (n - 2) • ch.root_normal
      rw [hK (n - 1)]
    · rw [upd_ne _ _ _ hj, upd_ne _ _ _ hj]
      exact hK j

theorem c1_forward_pass_planar_witness :
    ((forward_pass chainThree noCons 3 bufThreeRot) 1).rotation
      = ((forward_pass chainThree noCons 3 bufThree) 1).rotation := by
  have hK : ∀ j, (bufThreeRot j).translation = (bufThree j).translation := by
    intro j
    by_cases hj : j = 0
    · rw [hj]
      rfl
    · simp [bufThreeRot, hj]
  exact (c1_forward_pass_planar chainThree noCons 3 bufThreeRot bufThree hK).2 1
    (by norm_num) (by norm_num)

/-- C1 counterexample: on a concrete 3 joint chain with identity rotations
and no constraints, the forward pass sets joint 1's rotation to
from_rotation_z(pi), a quaternion different from the identity, while the
swing-twist composition of the spec (rotate_and_constrain, present in the
source but never invoked by forward_pass) produces the identity rotation
R * swing * twist = R for the same joint, since the delta rotating
root_normal onto the direction towards joint 0 is the identity arc. -/
theorem c1_counterexample :
    ((forward_pass chainThree noCons 3 bufThree) 1).rotation = Quat.from_rotation_z π ∧
    Quat.from_rotation_z π ≠ Quat.identity ∧
    (rotate_and_constrain ⟨0, 1, 0⟩ ⟨0, 1, 0⟩ (bufThree 1) []).rotation = Quat.identity := by
  refine ⟨?_, ?_, ?_⟩
  · simp only [forward_pass]
    rw [show (3 : Nat) - 2 = 1 from rfl]
    simp only [forwardLoop]
    rw [flNext_at_succ, flAngle_example noCons]
    · rw [show (0 : ℝ) + π / 2 + π / 2 = π by ring]
    · rfl
    · show (0 : ℝ) + 1 * 0 = 0
      norm_num
    · show (0 : ℝ) + 1 * 1 = 1
      norm_num
    · rfl
    · rfl
  · intro hcon
    have hz := congrArg Quat.z hcon
    simp only [Quat.from_rotation_z, Quat.identity, Real.sin_pi_div_two] at hz
    norm_num at hz
  · have harc : Quat.from_rotation_arc ⟨0, 1, 0⟩ ⟨0, 1, 0⟩ = Quat.identity := by
      unfold Quat.from_rotation_arc
      rw [if_pos (by norm_num [V3.dot])]
    have hinv : Quat.identity.inverse = Quat.identity := by
      simp only [Quat.inverse, Quat.conjugate, Quat.identity]
      ext <;> norm_num
    have hrotloc : (bufThree 1).rotation.inverse
        * Quat.from_rotation_arc ⟨0, 1, 0⟩ ⟨0, 1, 0⟩ = Quat.identity := by
      rw [harc, show (bufThree 1).rotation = Quat.identity from rfl, hinv,
          Quat.mul_identity]
    have hproj : (Quat.identity).xyz.project_onto ⟨0, 0, -1⟩ = (0 : V3) := by
      simp only [Quat.identity, Quat.xyz, V3.project_onto, V3.dot, V3.lengthSq, V3.smul_def]
      ext <;> norm_num
    have hlen1 : (Quat.mk 0 0 0 (1 : ℝ)).length = 1 := by
      simp only [Quat.length, Quat.lengthSq]
      rw [show (0 : ℝ) * 0 + 0 * 0 + 0 * 0 + 1 * 1 = 1 by ring, Real.sqrt_one]
    have hnorm1 : (Quat.mk 0 0 0 (1 : ℝ)).normalize = Quat.identity := by
      simp only [Quat.normalize, hlen1, Quat.identity]
      ext <;> norm_num
    have hdec : Quat.identity.decompose ⟨0, 0, -1⟩ = (Quat.identity, Quat.identity) := by
      simp only [Quat.decompose, hproj, V3.zero_x, V3.zero_y, V3.zero_z]
      rw [show Quat.identity.w = (1 : ℝ) from rfl, hnorm1, hinv, Quat.mul_identity]
    simp only [rotate_and_constrain, hrotloc, hdec, List.foldl_nil]
    rw [Quat.mul_identity, Quat.mul_identity]
    rfl
